import Mathlib

/-!
Verification of the puzzle-solving engine of the IA repository
(`src/game/core.py` and `src/game/solver.py`).

The data model and operations below are a shallow embedding of the Python
source.  Python strings are modelled as `List Char`; Python `int` list
indices (which may be negative) are modelled as `Int`; Python `list.pop`
and `list.insert` index semantics are reproduced exactly.  Layer colors
(single characters in every construction site of the source) are `Char`,
sizes are `Nat` (they are parsed from decimal digit strings).
-/

set_option maxRecDepth 4000

/-- Worker for `natChars`: peel decimal digits of `n` (least significant
first) onto `acc`; `fuel` only guarantees termination and is always
sufficient at the call site. -/
def natCharsCore : Nat → Nat → List Char → List Char
  | 0, _, acc => acc
  | fuel + 1, n, acc =>
    let d : Char := Char.ofNat (48 + n % 10)
    if n < 10 then d :: acc else natCharsCore fuel (n / 10) (d :: acc)

/-- Decimal digit characters of a natural number, as produced by Python
`str(n)` for a non-negative `n` (`core.py` renders `f"{color}{size}"`). -/
def natChars (n : Nat) : List Char :=
  natCharsCore (n + 1) n []

/-- Left inverse of `natChars`: read a digit string back as a number. -/
def charsToNat (cs : List Char) : Nat :=
  Nat.ofDigits 10 ((cs.map fun c => c.toNat - 48).reverse)

/-- Python `sep.join(strings)` on character lists. -/
def joinSep (sep : Char) : List (List Char) → List Char
  | [] => []
  | [a] => a
  | a :: b :: rest => a ++ sep :: joinSep sep (b :: rest)

/-- Python `s.split(sep)` for a one-character separator: splits at every
occurrence, keeping empty pieces. -/
def splitOnSep (sep : Char) : List Char → List (List Char)
  | [] => [[]]
  | c :: cs =>
    let rest := splitOnSep sep cs
    if c = sep then [] :: rest
    else
      match rest with
      | [] => [[c]]
      | piece :: more => (c :: piece) :: more

/-- Python `s.split()` (no argument): split on whitespace runs, dropping
empty pieces.  The strings fed to it by the source contain `' '` as the
only whitespace character. -/
def splitWs (cs : List Char) : List (List Char) :=
  (splitOnSep ' ' cs).filter fun p => ¬ p.isEmpty

/-- `CakeLayer` from `core.py`: a colored, sized unit. -/
structure CakeLayer where
  color : Char
  size : Nat
deriving DecidableEq

/-- `CakeLayer.__str__`: `f"{color}{size}"`. -/
def CakeLayer.str (l : CakeLayer) : List Char :=
  l.color :: natChars l.size

/-- `Tube` from `core.py`: an ordered stack of layers (bottom first, the
Python list append end — the top — is the end of the list) with a
capacity bound. -/
structure Tube where
  layers : List CakeLayer
  max_capacity : Nat
deriving DecidableEq

/-- `Tube.is_empty`. -/
def Tube.is_empty (t : Tube) : Bool :=
  t.layers.isEmpty

/-- `Tube.is_full`. -/
def Tube.is_full (t : Tube) : Bool :=
  t.layers.length == t.max_capacity

/-- `Tube.top_layer`: `self.layers[-1] if self.layers else None`. -/
def Tube.top_layer (t : Tube) : Option CakeLayer :=
  t.layers.getLast?

/-- `Tube.can_add`: non-full and (empty or top color matches). -/
def Tube.can_add (t : Tube) (l : CakeLayer) : Bool :=
  decide (t.layers.length < t.max_capacity) &&
    (t.is_empty || (t.top_layer.map CakeLayer.color == some l.color))

/-- `Tube.add_layer`: append when `can_add`, otherwise leave unchanged;
the Bool is the Python return value. -/
def Tube.add_layer (t : Tube) (l : CakeLayer) : Bool × Tube :=
  if t.can_add l then (true, { t with layers := t.layers ++ [l] })
  else (false, t)

/-- `Tube.is_complete`: full and monochromatic (`all` over an empty list
is `True` in Python, hence a full capacity-0 tube counts as complete). -/
def Tube.is_complete (t : Tube) : Bool :=
  t.is_full &&
    (match t.layers.head? with
     | none => true
     | some h => t.layers.all fun l => l.color == h.color)

/-- `Tube.remove_layer`: Python `list.pop(index)` guarded by
`-len <= index < len`; negative indices address from the end.  Returns
the popped layer (or `none`) and the resulting tube. -/
def Tube.remove_layer (t : Tube) (index : Int) : Option CakeLayer × Tube :=
  let n : Int := t.layers.length
  if -n ≤ index ∧ index < n then
    let i : Nat := (if index < 0 then index + n else index).toNat
    (t.layers[i]?, { t with layers := t.layers.eraseIdx i })
  else (none, t)

/-- `Tube.__str__`: layers rendered and joined by a single space. -/
def Tube.str (t : Tube) : List Char :=
  joinSep ' ' (t.layers.map CakeLayer.str)

/-- Python `list.insert(index, x)` semantics: negative indices are offset
by the length and clamped at 0; indices past the end append. -/
def pyInsert (l : List CakeLayer) (index : Int) (x : CakeLayer) : List CakeLayer :=
  let n : Int := l.length
  let i : Int := if index < 0 then max 0 (index + n) else min index n
  l.insertIdx i.toNat x

/-- `CakeGame` from `core.py` (the solver-relevant fields). -/
structure CakeGame where
  width : Nat
  height : Nat
  max_capacity : Nat
  tubes : List Tube
  moves : Nat
  score : Int
  selected_tube : Option Int
  selected_layer_pos : Option Int
deriving DecidableEq

/-- `CakeGame.is_solved`: every tube complete or empty. -/
def CakeGame.is_solved (g : CakeGame) : Bool :=
  g.tubes.all fun t => t.is_complete || t.is_empty

/-- `CakeGame.get_state_hash`: tube strings joined by `'|'`. -/
def CakeGame.get_state_hash (g : CakeGame) : List Char :=
  joinSep '|' (g.tubes.map Tube.str)

/-- `CakeGame.get_adjacent_tubes`: 4-connected grid neighbours in the
order up, down, left, right. -/
def CakeGame.get_adjacent_tubes (g : CakeGame) (tube_idx : Nat) : List Nat :=
  let row := tube_idx / g.width
  let col := tube_idx % g.width
  (if row > 0 then [tube_idx - g.width] else []) ++
  (if row < g.height - 1 then [tube_idx + g.width] else []) ++
  (if col > 0 then [tube_idx - 1] else []) ++
  (if col < g.width - 1 then [tube_idx + 1] else [])

/-- `CakeGame.move_layer`: reject `from == to` and out-of-range indices;
pop the addressed layer from the source; try to stack it on the
destination; on failure re-`insert` it at the original index.  The Bool
is the Python return value. -/
def CakeGame.move_layer (g : CakeGame) (from_idx layer_pos to_idx : Int) :
    Bool × CakeGame :=
  if from_idx = to_idx then (false, g)
  else if ¬ (0 ≤ from_idx ∧ from_idx < (g.tubes.length : Int) ∧
             0 ≤ to_idx ∧ to_idx < (g.tubes.length : Int)) then (false, g)
  else
    let fi := from_idx.toNat
    let ti := to_idx.toNat
    let from_tube := (g.tubes[fi]?).getD ⟨[], 0⟩
    let popped := from_tube.remove_layer layer_pos
    match popped.1 with
    | none => (false, g)
    | some layer =>
      let to_tube := (g.tubes[ti]?).getD ⟨[], 0⟩
      let added := to_tube.add_layer layer
      if added.1 then
        (true, { g with
                  tubes := (g.tubes.set fi popped.2).set ti added.2,
                  moves := g.moves + 1 })
      else
        (false, { g with
                   tubes := g.tubes.set fi
                     { popped.2 with layers := pyInsert popped.2.layers layer_pos layer } })

/-- A 2×1 board, capacity 2: container 0 holds `r` under `g`, container 1
holds `b`.  Moving the layer at Python index `-1` onto container 1 is
rejected (color clash) but scrambles container 0. -/
def gameMixedReject : CakeGame :=
  ⟨2, 1, 2, [⟨[⟨'r', 1⟩, ⟨'g', 1⟩], 2⟩, ⟨[⟨'b', 1⟩], 2⟩], 0, 0, none, none⟩

/-- Same dimensions as `gameMixedReject` but different container
contents (the two layers of container 0 are swapped). -/
def gameMixedSwapped : CakeGame :=
  ⟨2, 1, 2, [⟨[⟨'g', 1⟩, ⟨'r', 1⟩], 2⟩, ⟨[⟨'b', 1⟩], 2⟩], 0, 0, none, none⟩

/-- Same container contents as `gameMixedReject` but different tube
capacities and move counter: the canonical key ignores both. -/
def gameMixedWide : CakeGame :=
  ⟨2, 1, 3, [⟨[⟨'r', 1⟩, ⟨'g', 1⟩], 3⟩, ⟨[⟨'b', 1⟩], 3⟩], 7, 0, none, none⟩

/-- A 2×2 board, capacity 2, used to instantiate the universally
quantified move theorems at a concrete input. -/
def gameGrid4 : CakeGame :=
  ⟨2, 2, 2, [⟨[⟨'r', 1⟩], 2⟩, ⟨[⟨'r', 2⟩], 2⟩, ⟨[⟨'b', 1⟩], 2⟩, ⟨[], 2⟩], 0, 0, none, none⟩

/-- Python `int(s)` as the solver applies it to the digit substrings of
canonical keys: defined on non-empty all-digit strings, `none` models
the `ValueError` on anything else. -/
def parseNat (cs : List Char) : Option Nat :=
  if cs ≠ [] ∧ cs.all Char.isDigit then some (charsToNat cs) else none

/-- One tube of `GameSolver._load_state`: fold the whitespace-split
tokens into a fresh tube.  Each token contributes a layer whose color is
the lower-cased first character (`layer[0].lower()`) and whose size is
`int(layer[1:])`; the layer is inserted through the kind-checked
`add_layer`, whose `False` return is ignored by the source.  Empty
tokens are skipped (`if layer:`). -/
def load_tube : List (List Char) → Tube → Option Tube
  | [], tube => some tube
  | token :: rest, tube =>
    match token with
    | [] => load_tube rest tube
    | c :: cs =>
      match parseNat cs with
      | none => none
      | some size => load_tube rest (tube.add_layer ⟨c.toLower, size⟩).2

/-- The per-piece loop of `GameSolver._load_state`. -/
def load_tubes (cap : Nat) : List (List Char) → Option (List Tube)
  | [] => some []
  | piece :: rest =>
    match load_tube (splitWs piece) ⟨[], cap⟩ with
    | none => none
    | some tube =>
      match load_tubes cap rest with
      | none => none
      | some tubes => some (tube :: tubes)

/-- `GameSolver._load_state`: split the key on `'|'` and rebuild the
tube list; `none` models an `int()` crash on a malformed token (never
reached on keys produced by `get_state_hash`). -/
def load_state (cap : Nat) (state_str : List Char) : Option (List Tube) :=
  load_tubes cap (splitOnSep '|' state_str)

/-- The game object `CakeGame(width, height, max_capacity)` built inside
the solver loops, with its tubes then replaced by `_load_state`. -/
def mkSolverGame (width height cap : Nat) (tubes : List Tube) : CakeGame :=
  ⟨width, height, cap, tubes, 0, 0, none, none⟩

/-- `GameSolver._basic_heuristic`: count of tubes neither complete nor
empty. -/
def GameSolver.basic_heuristic (game : CakeGame) : Nat :=
  game.tubes.countP fun tube => !tube.is_complete && !tube.is_empty

/-- `GameSolver._advanced_heuristic`: skip complete tubes; add twice the
number of distinct colors (a Python `set`), then one per layer — scanned
over `reversed(tube.layers)` — whose color differs from the top layer's
color.  The Python return type is `int`; the values are non-negative. -/
def GameSolver.advanced_heuristic (game : CakeGame) : Nat :=
  game.tubes.foldl
    (fun score tube =>
      if tube.is_complete then score
      else
        let score2 := score + (tube.layers.map CakeLayer.color).toFinset.card * 2
        match tube.layers.getLast? with
        | none => score2
        | some top =>
          score2 + (tube.layers.reverse.filter fun layer => layer.color != top.color).length)
    0

/-- `GameSolver._get_heuristic`: dispatch on the strategy name, any
unrecognized name yields 0. -/
def GameSolver.get_heuristic (game : CakeGame) (heuristic_fn : String) : Nat :=
  if heuristic_fn = "basic" then GameSolver.basic_heuristic game
  else if heuristic_fn = "advanced" then GameSolver.advanced_heuristic game
  else 0

/-- Result of `_reconstruct_path`: a path, a `KeyError` on a missing
dictionary key, or fuel exhaustion (a model artifact only — the source
loop always terminates in the solver's runs). -/
inductive PathResult where
  | ok (path : List (Int × Int × Int))
  | keyError
  | fuelOut
deriving DecidableEq

/-- `GameSolver._reconstruct_path`: walk the predecessor chain from
`end_state`, appending `moves[current]` until a state with predecessor
`None`, then reverse. -/
def reconstruct_path (parent : List (List Char × Option (List Char)))
    (moves : List (List Char × (Int × Int × Int))) :
    Nat → List Char → List (Int × Int × Int) → PathResult
  | 0, _, _ => .fuelOut
  | fuel + 1, current, path =>
    match parent.lookup current with
    | none => .keyError
    | some none => .ok path.reverse
    | some (some prev) =>
      match moves.lookup current with
      | none => .keyError
      | some mv => reconstruct_path parent moves fuel prev (path ++ [mv])

/-- The candidate moves `solve_bfs`/`solve_a_star` enumerate from a
reconstructed state: ascending source index, skipping empty tubes;
ascending stack position over the whole stack; destinations in
`get_adjacent_tubes` order. -/
def solver_candidates (temp_game : CakeGame) : List (Nat × Nat × Nat) :=
  (List.range temp_game.tubes.length).flatMap fun from_idx =>
    match temp_game.tubes[from_idx]? with
    | none => []
    | some from_tube =>
      if from_tube.is_empty then []
      else
        (List.range from_tube.layers.length).flatMap fun layer_pos =>
          (temp_game.get_adjacent_tubes from_idx).map fun to_idx =>
            (from_idx, layer_pos, to_idx)

/-- Bookkeeping of one `solve_bfs` call: FIFO queue, visited set and the
two reconstruction dictionaries (association lists; insertion prepends,
`lookup` sees the newest binding, matching dict assignment). -/
structure BfsState where
  queue : List (List Char)
  visited : List (List Char)
  parent : List (List Char × Option (List Char))
  move_history : List (List Char × (Int × Int × Int))
deriving DecidableEq

/-- Outcome of `solve_bfs`: a move list, the `None` no-solution signal,
a model-artifact error (an `int()` crash or reconstruction failure —
unreachable from keys the solver itself generates), or fuel exhaustion. -/
inductive BfsOutcome where
  | found (path : List (Int × Int × Int))
  | noSolution
  | modelError
  | fuelOut
deriving DecidableEq

/-- One candidate probe of the BFS inner loop: reload the current key
into a fresh game, attempt the move, and on success record an unseen
successor key. -/
def bfs_try_move (width height cap : Nat) (current_state : List Char)
    (st : BfsState) (c : Nat × Nat × Nat) : Option BfsState :=
  match load_state cap current_state with
  | none => none
  | some tubes =>
    let new_game := mkSolverGame width height cap tubes
    let res := new_game.move_layer c.1 c.2.1 c.2.2
    if res.1 then
      let new_state := res.2.get_state_hash
      if new_state ∈ st.visited then some st
      else
        some { queue := st.queue ++ [new_state],
               visited := new_state :: st.visited,
               parent := (new_state, some current_state) :: st.parent,
               move_history :=
                 (new_state, ((c.1 : Int), (c.2.1 : Int), (c.2.2 : Int))) :: st.move_history }
    else some st

/-- Fold `bfs_try_move` over the candidate list. -/
def bfs_expand (width height cap : Nat) (current_state : List Char) :
    List (Nat × Nat × Nat) → BfsState → Option BfsState
  | [], st => some st
  | c :: cs, st =>
    match bfs_try_move width height cap current_state st c with
    | none => none
    | some st2 => bfs_expand width height cap current_state cs st2

/-- The `while queue:` loop of `solve_bfs`. -/
def solve_bfs_loop (width height cap : Nat) : Nat → BfsState → BfsOutcome
  | 0, _ => .fuelOut
  | fuel + 1, st =>
    match st.queue with
    | [] => .noSolution
    | current_state :: rest =>
      match load_state cap current_state with
      | none => .modelError
      | some tubes =>
        let temp_game := mkSolverGame width height cap tubes
        if temp_game.is_solved then
          match reconstruct_path st.parent st.move_history
              (st.parent.length + 1) current_state [] with
          | .ok path => .found path
          | _ => .modelError
        else
          match bfs_expand width height cap current_state
              (solver_candidates temp_game) { st with queue := rest } with
          | none => .modelError
          | some st2 => solve_bfs_loop width height cap fuel st2

/-- `GameSolver.solve_bfs`: start from the canonical key of the caller's
game, with that key visited and rooted (`parent = None`). -/
def GameSolver.solve_bfs (game : CakeGame) (fuel : Nat) : BfsOutcome :=
  let initial_state := game.get_state_hash
  solve_bfs_loop game.width game.height game.max_capacity fuel
    ⟨[initial_state], [initial_state], [(initial_state, none)], []⟩

/-- Python string `<` (code-point lexicographic), used by `heapq` when
two entries tie on the numeric priority. -/
def keyLt : List Char → List Char → Bool
  | [], [] => false
  | [], _ :: _ => true
  | _ :: _, [] => false
  | a :: as, b :: bs =>
    if a.toNat < b.toNat then true
    else if b.toNat < a.toNat then false
    else keyLt as bs

/-- Ordering of heap entries `(f_score, key)`: tuple comparison. -/
def entryLe (x y : Nat × List Char) : Bool :=
  x.1 < y.1 || (x.1 == y.1 && (keyLt x.2 y.2 || x.2 == y.2))

/-- `heapq.heappop` as extraction of the `(f, key)`-least entry
(leftmost among equals — `heapq`'s internal tie order is an
implementation detail the claims do not depend on). -/
def popMinEntry : List (Nat × List Char) → Option ((Nat × List Char) × List (Nat × List Char))
  | [] => none
  | e :: es =>
    match popMinEntry es with
    | none => some (e, [])
    | some (m, rest) => if entryLe e m then some (e, es) else some (m, e :: rest)

/-- Bookkeeping of one `solve_a_star` call. -/
structure AStarState where
  open_set : List (Nat × List Char)
  came_from : List (List Char × List Char)
  g_score : List (List Char × Nat)
  f_score : List (List Char × Nat)
deriving DecidableEq

/-- Outcome of `solve_a_star`: a path, the `None` signal, an uncaught
`KeyError` escaping `_reconstruct_path` (the source passes it an empty
moves dict), a model artifact, or fuel exhaustion. -/
inductive AStarOutcome where
  | found (path : List (Int × Int × Int))
  | noSolution
  | keyError
  | modelError
  | fuelOut
deriving DecidableEq

/-- One candidate probe of the A* inner loop, with the `g_score`
relaxation; the heuristic is evaluated on the mutated simulation game.
`none` models a dictionary/`int()` crash (unreachable: the popped key
always carries a recorded `g_score`). -/
def astar_try_move (width height cap : Nat) (heuristic_fn : String)
    (current_state : List Char) (st : AStarState) (c : Nat × Nat × Nat) :
    Option AStarState :=
  match load_state cap current_state with
  | none => none
  | some tubes =>
    let new_game := mkSolverGame width height cap tubes
    let res := new_game.move_layer c.1 c.2.1 c.2.2
    if res.1 then
      let new_state := res.2.get_state_hash
      match st.g_score.lookup current_state with
      | none => none
      | some gcur =>
        let tentative_g := gcur + 1
        let relax : Bool :=
          match st.g_score.lookup new_state with
          | none => true
          | some old_g => tentative_g < old_g
        if relax then
          let f := tentative_g + GameSolver.get_heuristic res.2 heuristic_fn
          some { open_set := st.open_set ++ [(f, new_state)],
                 came_from := (new_state, current_state) :: st.came_from,
                 g_score := (new_state, tentative_g) :: st.g_score,
                 f_score := (new_state, f) :: st.f_score }
        else some st
    else some st

/-- Fold `astar_try_move` over the candidate list. -/
def astar_expand (width height cap : Nat) (heuristic_fn : String)
    (current_state : List Char) :
    List (Nat × Nat × Nat) → AStarState → Option AStarState
  | [], st => some st
  | c :: cs, st =>
    match astar_try_move width height cap heuristic_fn current_state st c with
    | none => none
    | some st2 => astar_expand width height cap heuristic_fn current_state cs st2

/-- The `while open_set:` loop of `solve_a_star`.  On a solved state the
source calls `_reconstruct_path(came_from, {}, current_state)` — the
moves dictionary is empty, and `came_from` has no `None`-valued root
entry, so the walk raises `KeyError` whenever it runs. -/
def solve_a_star_loop (width height cap : Nat) (heuristic_fn : String) :
    Nat → AStarState → AStarOutcome
  | 0, _ => .fuelOut
  | fuel + 1, st =>
    match popMinEntry st.open_set with
    | none => .noSolution
    | some (entry, rest) =>
      match load_state cap entry.2 with
      | none => .modelError
      | some tubes =>
        let temp_game := mkSolverGame width height cap tubes
        if temp_game.is_solved then
          match reconstruct_path (st.came_from.map fun e => (e.1, some e.2)) []
              (st.came_from.length + 1) entry.2 [] with
          | .ok path => .found path
          | .keyError => .keyError
          | .fuelOut => .modelError
        else
          match astar_expand width height cap heuristic_fn entry.2
              (solver_candidates temp_game) { st with open_set := rest } with
          | none => .modelError
          | some st2 => solve_a_star_loop width height cap heuristic_fn fuel st2

/-- `GameSolver.solve_a_star`: the initial entry is pushed with priority
0; `g_score` starts at 0 and `f_score` at the heuristic of the caller's
own game object. -/
def GameSolver.solve_a_star (game : CakeGame) (heuristic_fn : String) (fuel : Nat) :
    AStarOutcome :=
  let initial := game.get_state_hash
  solve_a_star_loop game.width game.height game.max_capacity heuristic_fn fuel
    ⟨[(0, initial)], [], [(initial, 0)],
     [(initial, GameSolver.get_heuristic game heuristic_fn)]⟩

/-- A 2×1 board, capacity 2: container 0 = `[r, g]` (bottom to top),
container 1 = `[r]`.  Decoding its key drops the `g` layer, so BFS
"solves" a different board. -/
def gameDecodeTrap : CakeGame :=
  ⟨2, 1, 2, [⟨[⟨'r', 1⟩, ⟨'g', 1⟩], 2⟩, ⟨[⟨'r', 1⟩], 2⟩], 0, 0, none, none⟩

/-- Spec scenario B: a 2×1 board, capacity 2, container 0 = `[Red,
Green]` bottom-to-top, container 1 empty. -/
def gameScenarioB : CakeGame :=
  ⟨2, 1, 2, [⟨[⟨'R', 1⟩, ⟨'G', 1⟩], 2⟩, ⟨[], 2⟩], 0, 0, none, none⟩

/-- A 2×1 board, capacity 2, one `r` layer in each container: solvable
in exactly one move, and its key decodes faithfully. -/
def gameTwoRed : CakeGame :=
  ⟨2, 1, 2, [⟨[⟨'r', 1⟩], 2⟩, ⟨[⟨'r', 1⟩], 2⟩], 0, 0, none, none⟩

/-- A decoded tube is monochromatic: all layers share one color. -/
def TubeMono (t : Tube) : Prop :=
  ∀ l1 ∈ t.layers, ∀ l2 ∈ t.layers, l1.color = l2.color

/-! ### Helper lemmas about list surgery -/

theorem insertIdx_getElem_eraseIdx {α : Type} :
    ∀ (l : List α) (i : Nat) (h : i < l.length),
      (l.eraseIdx i).insertIdx i l[i] = l
  | _ :: _, 0, _ => rfl
  | a :: l, i + 1, h => by
    have ih := insertIdx_getElem_eraseIdx l i (Nat.lt_of_succ_lt_succ h)
    simpa [List.eraseIdx, List.insertIdx_succ_cons] using ih

theorem set_getElem_self {α : Type} :
    ∀ (l : List α) (i : Nat) (h : i < l.length), l.set i l[i] = l
  | _ :: _, 0, _ => rfl
  | a :: l, i + 1, h => by
    have ih := set_getElem_self l i (Nat.lt_of_succ_lt_succ h)
    simpa [List.set] using ih

/-- `remove_layer` at a non-negative index: the guard collapses to a
plain bounds check. -/
theorem remove_layer_nonneg (t : Tube) (p : Int) (hp : 0 ≤ p) :
    t.remove_layer p =
      if p < (t.layers.length : Int)
      then (t.layers[p.toNat]?, { t with layers := t.layers.eraseIdx p.toNat })
      else (none, t) := by
  simp only [Tube.remove_layer]
  split_ifs <;> first | rfl | omega

/-- A rejected `move_layer` with a non-negative position leaves the whole
game state equal to what it was. -/
theorem move_layer_reject_eq (g : CakeGame) (f p t : Int) (hp : 0 ≤ p) :
    (g.move_layer f p t).1 = false → (g.move_layer f p t).2 = g := by
  by_cases hft : f = t
  · simp [CakeGame.move_layer, hft]
  by_cases hr : 0 ≤ f ∧ f < (g.tubes.length : Int) ∧ 0 ≤ t ∧ t < (g.tubes.length : Int)
  case neg => simp [CakeGame.move_layer, hft, hr]
  have hred :
      g.move_layer f p t =
        match (((g.tubes[f.toNat]?).getD ⟨[], 0⟩).remove_layer p).1 with
        | none => (false, g)
        | some layer =>
          if ((((g.tubes[t.toNat]?).getD ⟨[], 0⟩).add_layer layer).1 : Bool) then
            (true, { g with
              tubes := (g.tubes.set f.toNat (((g.tubes[f.toNat]?).getD ⟨[], 0⟩).remove_layer p).2).set
                t.toNat (((g.tubes[t.toNat]?).getD ⟨[], 0⟩).add_layer layer).2,
              moves := g.moves + 1 })
          else
            (false, { g with
              tubes := g.tubes.set f.toNat
                { (((g.tubes[f.toNat]?).getD ⟨[], 0⟩).remove_layer p).2 with
                  layers := pyInsert (((g.tubes[f.toNat]?).getD ⟨[], 0⟩).remove_layer p).2.layers p layer } }) := by
    simp only [CakeGame.move_layer, if_neg hft, if_neg (not_not.mpr hr)]
  obtain ⟨hf0, hflt, ht0, htlt⟩ := hr
  have hfn : f.toNat < g.tubes.length := by omega
  have hF : (g.tubes[f.toNat]?).getD (⟨[], 0⟩ : Tube) = g.tubes[f.toNat] := by
    simp [List.getElem?_eq_getElem hfn]
  rw [remove_layer_nonneg _ _ hp, hF] at hred
  by_cases hpn : p < ((g.tubes[f.toNat].layers.length : Nat) : Int)
  case neg =>
    rw [if_neg hpn] at hred
    simp only [] at hred
    intro _
    rw [hred]
  rw [if_pos hpn] at hred
  have hpn2 : p.toNat < g.tubes[f.toNat].layers.length := by omega
  rw [List.getElem?_eq_getElem hpn2] at hred
  simp only [] at hred
  rcases hadd : ((g.tubes[t.toNat]?).getD (⟨[], 0⟩ : Tube)).add_layer
      (g.tubes[f.toNat].layers[p.toNat]) with ⟨ok, T2⟩
  rw [hadd] at hred
  cases ok with
  | true =>
    rw [if_pos rfl] at hred
    intro hfalse
    rw [hred] at hfalse
    exact absurd hfalse (by simp)
  | false =>
    rw [if_neg (by simp)] at hred
    intro _
    rw [hred]
    have hins : pyInsert ((g.tubes[f.toNat].layers).eraseIdx p.toNat) p
        (g.tubes[f.toNat].layers[p.toNat]) = g.tubes[f.toNat].layers := by
      simp only [pyInsert]
      have hlen : ((g.tubes[f.toNat].layers).eraseIdx p.toNat).length =
          g.tubes[f.toNat].layers.length - 1 := by
        simp [List.length_eraseIdx, hpn2]
      rw [if_neg (by omega)]
      have hmin : min p (((g.tubes[f.toNat].layers).eraseIdx p.toNat).length : Int) = p := by
        rw [hlen]; omega
      rw [hmin]
      exact insertIdx_getElem_eraseIdx (g.tubes[f.toNat].layers) p.toNat hpn2
    simp only [hins]
    have hset : g.tubes.set f.toNat g.tubes[f.toNat] = g.tubes := set_getElem_self _ _ hfn
    rw [hset]

/-- `Tube.can_add` as a proposition: spare capacity, and empty or a
matching top color. -/
theorem can_add_iff (t : Tube) (x : CakeLayer) :
    t.can_add x = true ↔
      (t.layers.length < t.max_capacity ∧
        (t.layers = [] ∨ t.layers.getLast?.map CakeLayer.color = some x.color)) := by
  simp [Tube.can_add, Tube.is_empty, Tube.top_layer, List.isEmpty_iff,
    Bool.and_eq_true, Bool.or_eq_true, decide_eq_true_eq]

/-- C2 (amended): for every board and every call
`move_layer(from_idx, layer_pos, to_idx)` with a non-negative
`layer_pos` that returns `False`, the canonical encoding
(`get_state_hash`) and the move counter are unchanged.  (For negative
`layer_pos` — accepted by `remove_layer`'s Python index guard — the
failed re-insertion can reorder the source tube; see the
counterexample.) -/
theorem C2_move_atomicity (g : CakeGame) (from_idx layer_pos to_idx : Int)
    (hpos : 0 ≤ layer_pos)
    (hrej : (g.move_layer from_idx layer_pos to_idx).1 = false) :
    (g.move_layer from_idx layer_pos to_idx).2.get_state_hash = g.get_state_hash ∧
    (g.move_layer from_idx layer_pos to_idx).2.moves = g.moves := by
  rw [move_layer_reject_eq g from_idx layer_pos to_idx hpos hrej]
  exact ⟨rfl, rfl⟩

theorem C2_move_atomicity_witness :
    (gameMixedReject.move_layer 0 0 1).1 = false ∧
    (gameMixedReject.move_layer 0 0 1).2.get_state_hash = gameMixedReject.get_state_hash ∧
    (gameMixedReject.move_layer 0 0 1).2.moves = gameMixedReject.moves :=
  ⟨by decide, C2_move_atomicity gameMixedReject 0 0 1 (by decide) (by decide)⟩

/-- C2 counterexample: a rejected move at Python position `-1` returns
`False` yet changes the canonical encoding (the source tube is
reordered by the failed re-insertion). -/
theorem C2_move_atomicity_counterexample :
    (gameMixedReject.move_layer 0 (-1) 1).1 = false ∧
    (gameMixedReject.move_layer 0 (-1) 1).2.get_state_hash ≠ gameMixedReject.get_state_hash := by
  decide

/-- C10: every call to `move_layer`, successful or not, leaves every
container other than the source and destination untouched, leaves
`width`, `height`, `max_capacity`, `score`, `selected_tube` and
`selected_layer_pos` untouched, and changes the move counter exactly on
success (by one). -/
theorem C10_move_layer_frame (g : CakeGame) (f p t : Int) :
    ((g.move_layer f p t).2.width = g.width ∧
     (g.move_layer f p t).2.height = g.height ∧
     (g.move_layer f p t).2.max_capacity = g.max_capacity ∧
     (g.move_layer f p t).2.score = g.score ∧
     (g.move_layer f p t).2.selected_tube = g.selected_tube ∧
     (g.move_layer f p t).2.selected_layer_pos = g.selected_layer_pos) ∧
    (∀ i : Nat, (i : Int) ≠ f → (i : Int) ≠ t →
      (g.move_layer f p t).2.tubes[i]? = g.tubes[i]?) ∧
    ((g.move_layer f p t).1 = false → (g.move_layer f p t).2.moves = g.moves) ∧
    ((g.move_layer f p t).1 = true → (g.move_layer f p t).2.moves = g.moves + 1) := by
  by_cases hft : f = t
  · have hml : g.move_layer f p t = (false, g) := by simp [CakeGame.move_layer, hft]
    rw [hml]
    exact ⟨⟨rfl, rfl, rfl, rfl, rfl, rfl⟩, fun i _ _ => rfl, fun _ => rfl,
      fun h => absurd h (by simp)⟩
  by_cases hr : 0 ≤ f ∧ f < (g.tubes.length : Int) ∧ 0 ≤ t ∧ t < (g.tubes.length : Int)
  case neg =>
    have hml : g.move_layer f p t = (false, g) := by simp [CakeGame.move_layer, hft, hr]
    rw [hml]
    exact ⟨⟨rfl, rfl, rfl, rfl, rfl, rfl⟩, fun i _ _ => rfl, fun _ => rfl,
      fun h => absurd h (by simp)⟩
  have hred :
      g.move_layer f p t =
        match (((g.tubes[f.toNat]?).getD ⟨[], 0⟩).remove_layer p).1 with
        | none => (false, g)
        | some layer =>
          if ((((g.tubes[t.toNat]?).getD ⟨[], 0⟩).add_layer layer).1 : Bool) then
            (true, { g with
              tubes := (g.tubes.set f.toNat (((g.tubes[f.toNat]?).getD ⟨[], 0⟩).remove_layer p).2).set
                t.toNat (((g.tubes[t.toNat]?).getD ⟨[], 0⟩).add_layer layer).2,
              moves := g.moves + 1 })
          else
            (false, { g with
              tubes := g.tubes.set f.toNat
                { (((g.tubes[f.toNat]?).getD ⟨[], 0⟩).remove_layer p).2 with
                  layers := pyInsert (((g.tubes[f.toNat]?).getD ⟨[], 0⟩).remove_layer p).2.layers p layer } }) := by
    simp only [CakeGame.move_layer, if_neg hft, if_neg (not_not.mpr hr)]
  obtain ⟨hf0, hflt, ht0, htlt⟩ := hr
  rcases hrem : ((g.tubes[f.toNat]?).getD (⟨[], 0⟩ : Tube)).remove_layer p with ⟨o, F2⟩
  rw [hrem] at hred
  cases o with
  | none =>
    simp only [] at hred
    rw [hred]
    exact ⟨⟨rfl, rfl, rfl, rfl, rfl, rfl⟩, fun i _ _ => rfl, fun _ => rfl,
      fun h => absurd h (by simp)⟩
  | some layer =>
    simp only [] at hred
    rcases hadd : ((g.tubes[t.toNat]?).getD (⟨[], 0⟩ : Tube)).add_layer layer with ⟨ok, T2⟩
    rw [hadd] at hred
    cases ok with
    | true =>
      rw [if_pos rfl] at hred
      rw [hred]
      refine ⟨⟨rfl, rfl, rfl, rfl, rfl, rfl⟩, ?_, fun h => absurd h (by simp), fun _ => rfl⟩
      intro i hif hit
      have h1 : t.toNat ≠ i := by omega
      have h2 : f.toNat ≠ i := by omega
      show (((g.tubes.set f.toNat F2).set t.toNat T2))[i]? = g.tubes[i]?
      rw [List.getElem?_set_ne h1, List.getElem?_set_ne h2]
    | false =>
      rw [if_neg (by simp)] at hred
      rw [hred]
      refine ⟨⟨rfl, rfl, rfl, rfl, rfl, rfl⟩, ?_, fun _ => rfl, fun h => absurd h (by simp)⟩
      intro i hif hit
      have h2 : f.toNat ≠ i := by omega
      exact List.getElem?_set_ne h2

theorem C10_move_layer_frame_witness :
    ((gameGrid4.move_layer 0 0 1).2.tubes[2]? = gameGrid4.tubes[2]? ∧
     (gameGrid4.move_layer 0 0 1).2.tubes[3]? = gameGrid4.tubes[3]? ∧
     (gameGrid4.move_layer 0 0 1).2.score = gameGrid4.score) ∧
    ((gameGrid4.move_layer 0 5 1).2.tubes[2]? = gameGrid4.tubes[2]? ∧
     ((gameGrid4.move_layer 0 5 1).1 = false →
       (gameGrid4.move_layer 0 5 1).2.moves = gameGrid4.moves)) :=
  ⟨⟨(C10_move_layer_frame gameGrid4 0 0 1).2.1 2 (by decide) (by decide),
    (C10_move_layer_frame gameGrid4 0 0 1).2.1 3 (by decide) (by decide),
    (C10_move_layer_frame gameGrid4 0 0 1).1.2.2.2.1⟩,
   ⟨(C10_move_layer_frame gameGrid4 0 5 1).2.1 2 (by decide) (by decide),
    (C10_move_layer_frame gameGrid4 0 5 1).2.2.1⟩⟩

/-- C5: with distinct in-range indices and a valid 0-based source
position, `move_layer` succeeds exactly when the destination has spare
capacity and is empty or top-color-matched; on success the addressed
layer moves from the source to the top of the destination and the move
counter grows by one. -/
theorem C5_move_layer_success (g : CakeGame) (fi ti pos : Nat) (F T : Tube) (x : CakeLayer)
    (hne : fi ≠ ti)
    (hF : g.tubes[fi]? = some F)
    (hT : g.tubes[ti]? = some T)
    (hx : F.layers[pos]? = some x) :
    ((g.move_layer fi pos ti).1 = true ↔
      (T.layers.length < T.max_capacity ∧
        (T.layers = [] ∨ T.layers.getLast?.map CakeLayer.color = some x.color))) ∧
    ((g.move_layer fi pos ti).1 = true →
      (g.move_layer fi pos ti).2.tubes =
        (g.tubes.set fi { F with layers := F.layers.eraseIdx pos }).set ti
          { T with layers := T.layers ++ [x] } ∧
      (g.move_layer fi pos ti).2.moves = g.moves + 1) := by
  obtain ⟨hfi, hFe⟩ := List.getElem?_eq_some_iff.mp hF
  obtain ⟨hti, hTe⟩ := List.getElem?_eq_some_iff.mp hT
  obtain ⟨hpos, hxe⟩ := List.getElem?_eq_some_iff.mp hx
  have hft : ((fi : Int)) ≠ ((ti : Int)) := by omega
  have hr : 0 ≤ ((fi : Int)) ∧ ((fi : Int)) < (g.tubes.length : Int) ∧
      0 ≤ ((ti : Int)) ∧ ((ti : Int)) < (g.tubes.length : Int) := by omega
  have hred :
      g.move_layer fi pos ti =
        match ((((g.tubes[((fi : Int)).toNat]?).getD ⟨[], 0⟩).remove_layer pos).1 :
            Option CakeLayer) with
        | none => (false, g)
        | some layer =>
          if ((((g.tubes[((ti : Int)).toNat]?).getD ⟨[], 0⟩).add_layer layer).1 : Bool) then
            (true, { g with
              tubes := (g.tubes.set ((fi : Int)).toNat
                  (((g.tubes[((fi : Int)).toNat]?).getD ⟨[], 0⟩).remove_layer pos).2).set
                ((ti : Int)).toNat (((g.tubes[((ti : Int)).toNat]?).getD ⟨[], 0⟩).add_layer layer).2,
              moves := g.moves + 1 })
          else
            (false, { g with
              tubes := g.tubes.set ((fi : Int)).toNat
                { (((g.tubes[((fi : Int)).toNat]?).getD ⟨[], 0⟩).remove_layer pos).2 with
                  layers := pyInsert
                    (((g.tubes[((fi : Int)).toNat]?).getD ⟨[], 0⟩).remove_layer pos).2.layers pos layer } }) := by
    simp only [CakeGame.move_layer, if_neg hft, if_neg (not_not.mpr hr)]
  simp only [Int.toNat_natCast] at hred
  rw [hF, hT] at hred
  simp only [Option.getD_some] at hred
  rw [remove_layer_nonneg F pos (by omega)] at hred
  rw [if_pos (by exact_mod_cast hpos)] at hred
  simp only [Int.toNat_natCast] at hred
  rw [hx] at hred
  simp only [] at hred
  by_cases hca : T.can_add x = true
  · have hal : T.add_layer x = (true, { T with layers := T.layers ++ [x] }) := by
      simp [Tube.add_layer, hca]
    rw [hal] at hred
    rw [if_pos rfl] at hred
    rw [hred]
    exact ⟨iff_of_true rfl ((can_add_iff T x).mp hca), fun _ => ⟨rfl, rfl⟩⟩
  · have hal : T.add_layer x = (false, T) := by
      simp [Tube.add_layer, hca]
    rw [hal] at hred
    rw [if_neg (by simp)] at hred
    rw [hred]
    exact ⟨iff_of_false (by simp) (fun hc => hca ((can_add_iff T x).mpr hc)),
      fun h => absurd h (by simp)⟩

theorem C5_move_layer_success_witness :
    ((gameGrid4.move_layer 0 0 1).1 = true ∧
     (gameGrid4.move_layer 0 0 1).2.tubes =
       (gameGrid4.tubes.set 0 ⟨[], 2⟩).set 1 ⟨[⟨'r', 2⟩, ⟨'r', 1⟩], 2⟩ ∧
     (gameGrid4.move_layer 0 0 1).2.moves = gameGrid4.moves + 1) ∧
    (gameGrid4.move_layer 0 0 2).1 = false := by
  have h := C5_move_layer_success gameGrid4 0 1 0 ⟨[⟨'r', 1⟩], 2⟩ ⟨[⟨'r', 2⟩], 2⟩ ⟨'r', 1⟩
    (by decide) (by decide) (by decide) (by decide)
  have h2 := C5_move_layer_success gameGrid4 0 2 0 ⟨[⟨'r', 1⟩], 2⟩ ⟨[⟨'b', 1⟩], 2⟩ ⟨'r', 1⟩
    (by decide) (by decide) (by decide) (by decide)
  have h1 : (gameGrid4.move_layer 0 0 1).1 = true := h.1.mpr (by decide)
  refine ⟨⟨h1, ?_, (h.2 h1).2⟩, ?_⟩
  · have := (h.2 h1).1
    simpa using this
  · by_contra hfx
    have : (gameGrid4.move_layer 0 0 2).1 = true := by
      revert hfx
      decide
    have := h2.1.mp this
    revert this
    decide

/-! ### Injectivity of the canonical encoding -/

theorem natCharsCore_eq_digits :
    ∀ (fuel n : Nat) (acc : List Char), 1 ≤ n → n < fuel →
      natCharsCore fuel n acc =
        ((Nat.digits 10 n).reverse.map fun d => Char.ofNat (48 + d)) ++ acc := by
  intro fuel
  induction fuel with
  | zero => intro n acc _ h2; omega
  | succ fuel ih =>
    intro n acc h1 h2
    simp only [natCharsCore]
    by_cases hn : n < 10
    · rw [if_pos hn]
      rw [Nat.digits_def' (by norm_num : (1:Nat) < 10) h1, Nat.div_eq_of_lt hn,
        Nat.digits_zero]
      simp
    · rw [if_neg hn]
      have h10 : 1 ≤ n / 10 := by
        have := Nat.div_le_div_right (c := 10) (Nat.le_of_not_lt hn)
        simpa using this
      have hlt : n / 10 < fuel := by
        have := Nat.div_lt_self (by omega : 0 < n) (by norm_num : 1 < 10)
        omega
      rw [ih (n / 10) (Char.ofNat (48 + n % 10) :: acc) h10 hlt]
      rw [Nat.digits_def' (by norm_num : (1:Nat) < 10) h1]
      simp

theorem natChars_eq_digits (n : Nat) :
    natChars n =
      if n = 0 then ['0']
      else (Nat.digits 10 n).reverse.map fun d => Char.ofNat (48 + d) := by
  by_cases h : n = 0
  · subst h; rfl
  · rw [if_neg h, natChars, natCharsCore_eq_digits (n + 1) n [] (by omega) (by omega),
      List.append_nil]

theorem digit_char_toNat (d : Nat) (hd : d < 10) : (Char.ofNat (48 + d)).toNat = 48 + d := by
  interval_cases d <;> decide

theorem charsToNat_natChars (n : Nat) : charsToNat (natChars n) = n := by
  rw [natChars_eq_digits]
  by_cases h : n = 0
  · subst h; decide
  · rw [if_neg h]
    unfold charsToNat
    rw [List.map_map, List.map_reverse, List.reverse_reverse]
    have hmap : (Nat.digits 10 n).map ((fun c => c.toNat - 48) ∘ fun d => Char.ofNat (48 + d)) =
        (Nat.digits 10 n).map id := by
      apply List.map_congr_left
      intro d hd
      have hlt : d < 10 := Nat.digits_lt_base (by norm_num) hd
      simp [Function.comp, digit_char_toNat d hlt]
    rw [hmap, List.map_id]
    exact Nat.ofDigits_digits 10 n

theorem natChars_injective (a b : Nat) (h : natChars a = natChars b) : a = b := by
  have := congrArg charsToNat h
  rwa [charsToNat_natChars, charsToNat_natChars] at this

theorem natChars_sep_free (n : Nat) (c : Char) (hc : c ∈ natChars n) :
    c ≠ '|' ∧ c ≠ ' ' := by
  rw [natChars_eq_digits] at hc
  by_cases h : n = 0
  · rw [if_pos h] at hc
    simp at hc
    subst hc; exact ⟨by decide, by decide⟩
  · rw [if_neg h] at hc
    obtain ⟨d, hd, rfl⟩ := List.mem_map.mp hc
    have hlt : d < 10 := Nat.digits_lt_base (by norm_num) (List.mem_reverse.mp hd)
    interval_cases d <;> exact ⟨by decide, by decide⟩

theorem natChars_ne_nil (n : Nat) : natChars n ≠ [] := by
  rw [natChars_eq_digits]
  by_cases h : n = 0
  · rw [if_pos h]; simp
  · rw [if_neg h]
    simp [Nat.digits_ne_nil_iff_ne_zero, h]

theorem layer_str_inj (l1 l2 : CakeLayer) (h : l1.str = l2.str) : l1 = l2 := by
  cases l1 with
  | mk c1 s1 =>
    cases l2 with
    | mk c2 s2 =>
      simp only [CakeLayer.str, List.cons.injEq] at h
      simp only [CakeLayer.mk.injEq]
      exact ⟨h.1, natChars_injective _ _ h.2⟩

theorem layer_str_sep_free (l : CakeLayer) (hcol : l.color ≠ '|' ∧ l.color ≠ ' ')
    (c : Char) (hc : c ∈ l.str) : c ≠ '|' ∧ c ≠ ' ' := by
  unfold CakeLayer.str at hc
  rcases List.mem_cons.mp hc with h | h
  · subst h; exact hcol
  · exact natChars_sep_free _ _ h

theorem append_sep_inj {sep : Char} :
    ∀ (a b u v : List Char), sep ∉ a → sep ∉ b →
      a ++ sep :: u = b ++ sep :: v → a = b ∧ u = v := by
  intro a
  induction a with
  | nil =>
    intro b u v _ hb h
    cases b with
    | nil => simpa using h
    | cons y ys =>
      simp only [List.nil_append, List.cons_append, List.cons.injEq] at h
      exact absurd (h.1 ▸ List.mem_cons_self y ys) (h.1 ▸ hb)
  | cons x xs ih =>
    intro b u v ha hb h
    cases b with
    | nil =>
      simp only [List.nil_append, List.cons_append, List.cons.injEq] at h
      exact absurd (h.1 ▸ List.mem_cons_self x xs) (by rw [h.1] at ha; exact fun hm => ha (h.1 ▸ hm))
    | cons y ys =>
      simp only [List.cons_append, List.cons.injEq] at h
      obtain ⟨hxy, hrest⟩ := h
      obtain ⟨h1, h2⟩ := ih ys u v (fun hm => ha (List.mem_cons_of_mem x hm))
        (fun hm => hb (hxy ▸ List.mem_cons_of_mem y hm)) hrest
      exact ⟨by rw [hxy, h1], h2⟩

theorem joinSep_mem {sep : Char} :
    ∀ (ls : List (List Char)) (c : Char), c ∈ joinSep sep ls →
      c = sep ∨ ∃ a ∈ ls, c ∈ a := by
  intro ls
  induction ls with
  | nil => intro c hc; simp [joinSep] at hc
  | cons a rest ih =>
    intro c hc
    cases rest with
    | nil => exact Or.inr ⟨a, List.mem_cons_self a [], by simpa [joinSep] using hc⟩
    | cons b more =>
      simp only [joinSep] at hc
      rcases List.mem_append.mp hc with h | h
      · exact Or.inr ⟨a, List.mem_cons_self a _, h⟩
      · rcases List.mem_cons.mp h with h | h
        · exact Or.inl h
        · rcases ih c h with h | ⟨x, hx, hcx⟩
          · exact Or.inl h
          · exact Or.inr ⟨x, List.mem_cons_of_mem a hx, hcx⟩

theorem joinSep_inj_of_ne_nil {sep : Char} :
    ∀ (as bs : List (List Char)),
      (∀ a ∈ as, a ≠ [] ∧ sep ∉ a) → (∀ b ∈ bs, b ≠ [] ∧ sep ∉ b) →
      joinSep sep as = joinSep sep bs → as = bs := by
  intro as
  induction as with
  | nil =>
    intro bs _ hb h
    cases bs with
    | nil => rfl
    | cons b more =>
      exfalso
      cases more with
      | nil =>
        exact (hb b (List.mem_cons_self b [])).1 (by simpa [joinSep] using h.symm)
      | cons b2 more2 =>
        simp only [joinSep] at h
        cases b with
        | nil => exact (hb [] (List.mem_cons_self [] _)).1 rfl
        | cons y ys => simp at h
  | cons a rest ih =>
    intro bs ha hb h
    cases bs with
    | nil =>
      exfalso
      cases rest with
      | nil => exact (ha a (List.mem_cons_self a [])).1 (by simpa [joinSep] using h)
      | cons a2 rest2 =>
        simp only [joinSep] at h
        cases a with
        | nil => exact (ha [] (List.mem_cons_self [] _)).1 rfl
        | cons y ys => simp at h
    | cons b more =>
      cases rest with
      | nil =>
        cases more with
        | nil => simpa [joinSep] using h
        | cons b2 more2 =>
          exfalso
          simp only [joinSep] at h
          have hsep : sep ∈ a := by
            rw [h]
            exact List.mem_append.mpr (Or.inr (List.mem_cons_self sep _))
          exact (ha a (List.mem_cons_self a [])).2 hsep
      | cons a2 rest2 =>
        cases more with
        | nil =>
          exfalso
          simp only [joinSep] at h
          have hsep : sep ∈ b := by
            rw [← h]
            exact List.mem_append.mpr (Or.inr (List.mem_cons_self sep _))
          exact (hb b (List.mem_cons_self b [])).2 hsep
        | cons b2 more2 =>
          simp only [joinSep] at h
          obtain ⟨h1, h2⟩ := append_sep_inj a b _ _
            (ha a (List.mem_cons_self a _)).2 (hb b (List.mem_cons_self b _)).2 h
          have := ih (b2 :: more2)
            (fun x hx => ha x (List.mem_cons_of_mem a hx))
            (fun x hx => hb x (List.mem_cons_of_mem b hx)) h2
          rw [h1, this]

theorem joinSep_inj_of_length_eq {sep : Char} :
    ∀ (as bs : List (List Char)), as.length = bs.length →
      (∀ a ∈ as, sep ∉ a) → (∀ b ∈ bs, sep ∉ b) →
      joinSep sep as = joinSep sep bs → as = bs := by
  intro as
  induction as with
  | nil =>
    intro bs hlen _ _ _
    cases bs with
    | nil => rfl
    | cons b more => simp at hlen
  | cons a rest ih =>
    intro bs hlen ha hb h
    cases bs with
    | nil => simp at hlen
    | cons b more =>
      cases rest with
      | nil =>
        cases more with
        | nil => simpa [joinSep] using h
        | cons b2 more2 => simp at hlen
      | cons a2 rest2 =>
        cases more with
        | nil => simp at hlen
        | cons b2 more2 =>
          simp only [joinSep] at h
          obtain ⟨h1, h2⟩ := append_sep_inj a b _ _
            (ha a (List.mem_cons_self a _)) (hb b (List.mem_cons_self b _)) h
          have := ih (b2 :: more2) (by simpa using hlen)
            (fun x hx => ha x (List.mem_cons_of_mem a hx))
            (fun x hx => hb x (List.mem_cons_of_mem b hx)) h2
          rw [h1, this]

theorem map_layer_str_inj :
    ∀ (xs ys : List CakeLayer), xs.map CakeLayer.str = ys.map CakeLayer.str → xs = ys := by
  intro xs
  induction xs with
  | nil =>
    intro ys h
    cases ys with
    | nil => rfl
    | cons y ys => simp at h
  | cons x xs ih =>
    intro ys h
    cases ys with
    | nil => simp at h
    | cons y ys =>
      simp only [List.map_cons, List.cons.injEq] at h
      rw [layer_str_inj x y h.1, ih ys h.2]

theorem tube_str_inj (t1 t2 : Tube)
    (hc1 : ∀ l ∈ t1.layers, l.color ≠ ' ')
    (hc2 : ∀ l ∈ t2.layers, l.color ≠ ' ')
    (h : t1.str = t2.str) : t1.layers = t2.layers := by
  unfold Tube.str at h
  apply map_layer_str_inj
  apply joinSep_inj_of_ne_nil _ _ ?_ ?_ h
  · intro a ha
    obtain ⟨l, hl, rfl⟩ := List.mem_map.mp ha
    refine ⟨by simp [CakeLayer.str], fun hs => ?_⟩
    rcases List.mem_cons.mp hs with hh | hh
    · exact hc1 l hl hh.symm
    · exact (natChars_sep_free _ _ hh).2 rfl
  · intro a ha
    obtain ⟨l, hl, rfl⟩ := List.mem_map.mp ha
    refine ⟨by simp [CakeLayer.str], fun hs => ?_⟩
    rcases List.mem_cons.mp hs with hh | hh
    · exact hc2 l hl hh.symm
    · exact (natChars_sep_free _ _ hh).2 rfl

theorem tube_str_bar_free (t : Tube)
    (hcol : ∀ l ∈ t.layers, l.color ≠ '|' ∧ l.color ≠ ' ')
    (c : Char) (hc : c ∈ t.str) : c ≠ '|' := by
  unfold Tube.str at hc
  rcases joinSep_mem _ _ hc with h | ⟨a, ha, hca⟩
  · subst h; decide
  · obtain ⟨l, hl, rfl⟩ := List.mem_map.mp ha
    exact (layer_str_sep_free l (hcol l hl) c hca).1

theorem map_tube_str_inj :
    ∀ (ts1 ts2 : List Tube),
      (∀ t ∈ ts1, ∀ l ∈ t.layers, l.color ≠ ' ') →
      (∀ t ∈ ts2, ∀ l ∈ t.layers, l.color ≠ ' ') →
      ts1.map Tube.str = ts2.map Tube.str →
      ts1.map Tube.layers = ts2.map Tube.layers := by
  intro ts1
  induction ts1 with
  | nil =>
    intro ts2 _ _ h
    cases ts2 with
    | nil => rfl
    | cons t ts => simp at h
  | cons t ts ih =>
    intro ts2 hc1 hc2 h
    cases ts2 with
    | nil => simp at h
    | cons u us =>
      simp only [List.map_cons, List.cons.injEq] at h ⊢
      refine ⟨tube_str_inj t u (hc1 t (List.mem_cons_self t ts))
        (hc2 u (List.mem_cons_self u us)) h.1, ?_⟩
      exact ih us (fun x hx => hc1 x (List.mem_cons_of_mem t hx))
        (fun x hx => hc2 x (List.mem_cons_of_mem u hx)) h.2

/-- C6: over boards of the same dimensions whose layer colors avoid the
two separator characters, the canonical key `get_state_hash` is
injective in the container contents — and conversely boards with
identical container contents produce identical keys. -/
theorem C6_state_hash_injective (g1 g2 : CakeGame)
    (hdim : g1.tubes.length = g2.tubes.length)
    (h1 : ∀ t ∈ g1.tubes, ∀ l ∈ t.layers, l.color ≠ '|' ∧ l.color ≠ ' ')
    (h2 : ∀ t ∈ g2.tubes, ∀ l ∈ t.layers, l.color ≠ '|' ∧ l.color ≠ ' ') :
    g1.get_state_hash = g2.get_state_hash ↔
      g1.tubes.map Tube.layers = g2.tubes.map Tube.layers := by
  constructor
  · intro h
    apply map_tube_str_inj _ _
      (fun t ht l hl => (h1 t ht l hl).2) (fun t ht l hl => (h2 t ht l hl).2)
    apply joinSep_inj_of_length_eq _ _ (by simpa using hdim) ?_ ?_ h
    · intro a ha hmem
      obtain ⟨t, ht, rfl⟩ := List.mem_map.mp ha
      exact tube_str_bar_free t (h1 t ht) _ hmem rfl
    · intro a ha hmem
      obtain ⟨t, ht, rfl⟩ := List.mem_map.mp ha
      exact tube_str_bar_free t (h2 t ht) _ hmem rfl
  · intro h
    unfold CakeGame.get_state_hash
    have hstr : g1.tubes.map Tube.str = g2.tubes.map Tube.str := by
      have e1 : g1.tubes.map Tube.str =
          (g1.tubes.map Tube.layers).map fun L => joinSep ' ' (L.map CakeLayer.str) := by
        rw [List.map_map]; rfl
      have e2 : g2.tubes.map Tube.str =
          (g2.tubes.map Tube.layers).map fun L => joinSep ' ' (L.map CakeLayer.str) := by
        rw [List.map_map]; rfl
      rw [e1, e2, h]
    rw [hstr]

theorem C6_state_hash_injective_witness :
    gameMixedReject.get_state_hash ≠ gameMixedSwapped.get_state_hash ∧
    gameMixedReject.get_state_hash = gameMixedWide.get_state_hash :=
  ⟨fun h => by
      have := (C6_state_hash_injective gameMixedReject gameMixedSwapped
        (by decide) (by decide) (by decide)).mp h
      revert this
      decide,
   (C6_state_hash_injective gameMixedReject gameMixedWide
      (by decide) (by decide) (by decide)).mpr (by decide)⟩

/-! ### Solver claims -/

/-- C1 (refuted — evidence): on the board `[r,g] | [r]`, `solve_bfs`
returns the one-move list `[(0,0,1)]`, that move succeeds on the real
initial state, yet the resulting state is not solved: the returned list
is not a solution at all (the `_load_state` decode drops the `g` layer,
so the search explores a different board). -/
theorem C1_bfs_returns_non_solution :
    GameSolver.solve_bfs gameDecodeTrap 10 = .found [(0, 0, 1)] ∧
    (gameDecodeTrap.move_layer 0 0 1).1 = true ∧
    (gameDecodeTrap.move_layer 0 0 1).2.is_solved = false := by
  decide

/-- C3 (refuted — evidence): decoding the canonical key of the board
`[r,g] | [r]` yields `[r] | [r]`: the `g` layer is silently dropped by
the kind-checked `add_layer`, so `_load_state` does not invert
`get_state_hash`. -/
theorem C3_load_state_not_inverse :
    load_state gameDecodeTrap.max_capacity gameDecodeTrap.get_state_hash =
      some [⟨[⟨'r', 1⟩], 2⟩, ⟨[⟨'r', 1⟩], 2⟩] ∧
    ([⟨[⟨'r', 1⟩], 2⟩, ⟨[⟨'r', 1⟩], 2⟩] : List Tube).map Tube.layers ≠
      gameDecodeTrap.tubes.map Tube.layers := by
  decide

/-- C4 (refuted — evidence): on the board `[r] | [r]`, `solve_bfs`
returns a move list, but `solve_a_star` — with any of the three
heuristic-name classes — raises `KeyError`, because the source passes an
empty moves dictionary to `_reconstruct_path`. -/
theorem C4_astar_keyerror :
    GameSolver.solve_bfs gameTwoRed 10 = .found [(0, 0, 1)] ∧
    GameSolver.solve_a_star gameTwoRed "basic" 10 = .keyError ∧
    GameSolver.solve_a_star gameTwoRed "advanced" 10 = .keyError ∧
    GameSolver.solve_a_star gameTwoRed "zzz" 10 = .keyError := by
  decide

/-- C7 (refuted — evidence): on spec scenario B (`[Red, Green] | []`,
capacity 2), `solve_bfs` returns the no-solution signal instead of the
claimed `[(0, 1, 1)]` (the decode both lower-cases `R` and drops `G`);
the move `(0, 1, 1)` itself does produce `[Red] | [Green]`, not solved,
as the claim states. -/
theorem C7_scenario_b :
    GameSolver.solve_bfs gameScenarioB 10 = .noSolution ∧
    (gameScenarioB.move_layer 0 1 1).1 = true ∧
    (gameScenarioB.move_layer 0 1 1).2.tubes.map Tube.layers =
      [[⟨'R', 1⟩], [⟨'G', 1⟩]] ∧
    (gameScenarioB.move_layer 0 1 1).2.is_solved = false := by
  decide

/-! ### C9: decoded tubes are monochromatic -/

theorem add_layer_mono (t : Tube) (x : CakeLayer) (h : TubeMono t) :
    TubeMono (t.add_layer x).2 := by
  unfold Tube.add_layer
  by_cases hca : t.can_add x = true
  · rw [if_pos hca]
    rcases (can_add_iff t x).mp hca with ⟨_, hcase⟩
    have haux : ∀ l ∈ t.layers ++ [x], l.color = x.color := by
      rcases hcase with hnil | htop
      · intro l hl
        rw [hnil] at hl
        simp only [List.nil_append, List.mem_singleton] at hl
        rw [hl]
      · obtain ⟨top, htl, htc⟩ := Option.map_eq_some'.mp htop
        have htop_mem : top ∈ t.layers := List.mem_of_mem_getLast? htl
        intro l hl
        rcases List.mem_append.mp hl with hmem | hmem
        · exact (h l hmem top htop_mem).trans htc
        · rw [List.mem_singleton.mp hmem]
    intro l1 hl1 l2 hl2
    exact (haux l1 hl1).trans (haux l2 hl2).symm
  · rw [if_neg hca]
    exact h

theorem load_tube_mono :
    ∀ (tokens : List (List Char)) (t : Tube), TubeMono t →
      ∀ t2, load_tube tokens t = some t2 → TubeMono t2 := by
  intro tokens
  induction tokens with
  | nil =>
    intro t h t2 he
    simp only [load_tube] at he
    exact Option.some.inj he ▸ h
  | cons token rest ih =>
    intro t h t2 he
    cases token with
    | nil => exact ih t h t2 (by simpa [load_tube] using he)
    | cons c cs =>
      simp only [load_tube] at he
      cases hp : parseNat cs with
      | none => rw [hp] at he; simp at he
      | some size =>
        rw [hp] at he
        exact ih _ (add_layer_mono t ⟨c.toLower, size⟩ h) t2 he

theorem load_tubes_mono (cap : Nat) :
    ∀ (pieces : List (List Char)) (tubes : List Tube),
      load_tubes cap pieces = some tubes → ∀ t ∈ tubes, TubeMono t := by
  intro pieces
  induction pieces with
  | nil =>
    intro tubes he t ht
    simp only [load_tubes] at he
    rw [← Option.some.inj he] at ht
    simp at ht
  | cons piece rest ih =>
    intro tubes he t ht
    simp only [load_tubes] at he
    cases h1 : load_tube (splitWs piece) ⟨[], cap⟩ with
    | none => rw [h1] at he; simp at he
    | some tube =>
      rw [h1] at he
      cases h2 : load_tubes cap rest with
      | none => rw [h2] at he; simp at he
      | some tubes2 =>
        rw [h2] at he
        rw [← Option.some.inj he] at ht
        rcases List.mem_cons.mp ht with rfl | hmem
        · refine load_tube_mono (splitWs piece) ⟨[], cap⟩ ?_ t h1
          intro l1 hl1
          simp at hl1
        · exact ih tubes2 h2 t hmem

/-- C9: for every key string on which `_load_state` succeeds, every
decoded container is monochromatic, because decoding inserts layers
through the kind-checked `add_layer`, which silently drops any layer
whose color differs from the current top. -/
theorem C9_load_state_monochromatic (cap : Nat) (key : List Char) (tubes : List Tube)
    (h : load_state cap key = some tubes) :
    ∀ t ∈ tubes, TubeMono t :=
  load_tubes_mono cap (splitOnSep '|' key) tubes h

theorem C9_load_state_monochromatic_witness :
    TubeMono ⟨[⟨'r', 1⟩], 6⟩ ∧ TubeMono ⟨[⟨'b', 2⟩], 6⟩ :=
  ⟨C9_load_state_monochromatic 6 ("r1 g1|b2".toList)
      [⟨[⟨'r', 1⟩], 6⟩, ⟨[⟨'b', 2⟩], 6⟩] (by decide) _ (by simp),
   C9_load_state_monochromatic 6 ("r1 g1|b2".toList)
      [⟨[⟨'r', 1⟩], 6⟩, ⟨[⟨'b', 2⟩], 6⟩] (by decide) _ (by simp)⟩

/-! ### C8: heuristic evaluation -/

theorem foldl_step_eq_sum (w : Tube → Nat) :
    ∀ (l : List Tube) (a : Nat), l.foldl (fun s t => s + w t) a = a + (l.map w).sum := by
  intro l
  induction l with
  | nil => intro a; simp
  | cons t ts ih =>
    intro a
    simp only [List.foldl_cons, List.map_cons, List.sum_cons, ih]
    omega

theorem advanced_heuristic_eq_sum (game : CakeGame) :
    GameSolver.advanced_heuristic game =
      (game.tubes.map fun t =>
        if t.is_complete then 0
        else 2 * (t.layers.map CakeLayer.color).dedup.length +
          (match t.layers.getLast? with
           | none => 0
           | some top => (t.layers.filter fun l => decide (l.color ≠ top.color)).length)).sum := by
  unfold GameSolver.advanced_heuristic
  have hbody :
      (fun (score : Nat) (tube : Tube) =>
        if tube.is_complete then score
        else
          let score2 := score + (tube.layers.map CakeLayer.color).toFinset.card * 2
          match tube.layers.getLast? with
          | none => score2
          | some top =>
            score2 + (tube.layers.reverse.filter fun layer => layer.color != top.color).length) =
      fun score tube =>
        score + (if tube.is_complete then 0
          else 2 * (tube.layers.map CakeLayer.color).dedup.length +
            (match tube.layers.getLast? with
             | none => 0
             | some top => (tube.layers.filter fun l => decide (l.color ≠ top.color)).length)) := by
    funext score tube
    by_cases hc : tube.is_complete = true
    · simp [hc]
    · rw [if_neg hc, if_neg hc]
      cases hl : tube.layers.getLast? with
      | none =>
        simp only [List.card_toFinset]
        omega
      | some top =>
        simp only [List.card_toFinset]
        have hfr : (tube.layers.reverse.filter fun layer => layer.color != top.color) =
            (tube.layers.filter fun layer => layer.color != top.color).reverse :=
          List.filter_reverse _ _
        have hpred : (fun (layer : CakeLayer) => layer.color != top.color) =
            fun l => decide (l.color ≠ top.color) := by
          funext l
          by_cases h : l.color = top.color <;> simp [bne, h]
        rw [hfr, List.length_reverse, hpred]
        omega
  rw [hbody, foldl_step_eq_sum]
  simp

/-- C8: the `basic` heuristic counts containers neither empty nor
complete; any unrecognized strategy name yields 0; the `advanced`
heuristic sums, over non-complete containers, twice the number of
distinct colors plus one for each layer whose color differs from the top
layer's color (whole-stack scan, no early break). -/
theorem C8_heuristics (game : CakeGame) (name : String) :
    GameSolver.get_heuristic game "basic" =
      (game.tubes.countP fun t => !t.is_complete && !t.is_empty) ∧
    (name ≠ "basic" → name ≠ "advanced" → GameSolver.get_heuristic game name = 0) ∧
    GameSolver.get_heuristic game "advanced" =
      (game.tubes.map fun t =>
        if t.is_complete then 0
        else 2 * (t.layers.map CakeLayer.color).dedup.length +
          (match t.layers.getLast? with
           | none => 0
           | some top => (t.layers.filter fun l => decide (l.color ≠ top.color)).length)).sum := by
  refine ⟨rfl, ?_, ?_⟩
  · intro h1 h2
    unfold GameSolver.get_heuristic
    rw [if_neg h1, if_neg h2]
  · have hdispatch : GameSolver.get_heuristic game "advanced" =
        GameSolver.advanced_heuristic game := by
      unfold GameSolver.get_heuristic
      rw [if_neg (by decide), if_pos rfl]
    rw [hdispatch, advanced_heuristic_eq_sum]

theorem C8_heuristics_witness :
    GameSolver.get_heuristic gameGrid4 "mystery" = 0 :=
  (C8_heuristics gameGrid4 "mystery").2.1 (by decide) (by decide)
